import Mathlib

/-!
Shallow embedding of the `strloin` crate: a half-open byte-range data model,
the `collapse_ranges` collapsing function, the incremental `Ranges`
accumulator, and the `Strloin` extractor returning a copy-on-write result.
Rust's panicking indexing operation is modelled by an `Option`-valued `sliceAt`;
`none` stands for a panic (hard failure).
-/

/-- Embeds Rust's `Range<usize>`: the half-open interval `[start, stop)`.
The Rust field `end` is called `stop` here because `end` is a Lean keyword. -/
structure Range where
  start : Nat
  stop : Nat
  deriving DecidableEq

/-- Embeds `Ranges` from `src/ranges.rs`: a vector of ranges built incrementally. -/
structure Ranges where
  ranges : List Range
  deriving DecidableEq

/-- Embeds `Ranges::new`. -/
def Ranges.new : Ranges := ⟨[]⟩

/-- Embeds `Ranges::from_range`. -/
def Ranges.from_range (r : Range) : Ranges := ⟨[r]⟩

/-- Embeds `Ranges::push` from `src/ranges.rs`: if the vector has a last
element `last` and `range.start == last.end && last.start < last.end &&
range.start < range.end`, mutate `last.end` to `range.end`; otherwise push
`range` onto the vector. -/
def Ranges.push (s : Ranges) (r : Range) : Ranges :=
  match s.ranges.getLast? with
  | some last =>
    if r.start = last.stop ∧ last.start < last.stop ∧ r.start < r.stop then
      ⟨s.ranges.dropLast ++ [⟨last.start, r.stop⟩]⟩
    else
      ⟨s.ranges ++ [r]⟩
  | none => ⟨s.ranges ++ [r]⟩

/-- Embeds `Ranges::push_unchecked` from `src/ranges.rs`: same as `push`
but the merge test is only `range.start == last.end`. -/
def Ranges.push_unchecked (s : Ranges) (r : Range) : Ranges :=
  match s.ranges.getLast? with
  | some last =>
    if r.start = last.stop then
      ⟨s.ranges.dropLast ++ [⟨last.start, r.stop⟩]⟩
    else
      ⟨s.ranges ++ [r]⟩
  | none => ⟨s.ranges ++ [r]⟩

/-- Embeds `Ranges::clear`. -/
def Ranges.clear (_ : Ranges) : Ranges := ⟨[]⟩

/-- The loop of `collapse_ranges` (`for r in rs { ... }`), carrying the
mutable `end` variable: bail out with `None` on `r.start != end || r.end <
r.start`, otherwise set `end = r.end` and continue. -/
def collapse_loop (start : Nat) : Nat → List Range → Option Range
  | e, [] => some ⟨start, e⟩
  | e, r :: rs =>
    if r.start ≠ e ∨ r.stop < r.start then none
    else collapse_loop start r.stop rs

/-- Embeds `collapse_ranges` from `src/ranges.rs`: empty input collapses to
`[0, 0)`; otherwise take the first range, fail if `start > end`, then run
the chaining loop over the rest. -/
def collapse_ranges : List Range → Option Range
  | [] => some ⟨0, 0⟩
  | first :: rs =>
    if first.start > first.stop then none
    else collapse_loop first.start first.stop rs

/-- Embeds Rust's `Cow<str>`: either a borrowed view into the source or an
owned buffer. The content is kept in both variants so theorems can compare
what the caller reads. -/
inductive Cow (α : Type) where
  | Borrowed : List α → Cow α
  | Owned : List α → Cow α
  deriving DecidableEq

/-- The character data a caller reads from a `Cow`, regardless of variant. -/
def Cow.content : Cow α → List α
  | Borrowed s => s
  | Owned s => s

/-- The value of the Rust indexing `&source[r]` when it is defined: the
elements at indices `r.start, ..., r.stop - 1`. -/
def extract (src : List α) (r : Range) : List α :=
  (src.drop r.start).take (r.stop - r.start)

/-- Embeds Rust's indexing `&source[r]`, which panics (modelled as `none`)
unless `r.start <= r.stop` and `r.stop <= source.len()`. -/
def sliceAt (src : List α) (r : Range) : Option (List α) :=
  if r.start ≤ r.stop ∧ r.stop ≤ src.length then some (extract src r) else none

/-- Embeds the owned path `ranges.iter().map(|r| &self.source[r]).collect()`:
index every range in order, propagating a panic (`none`) from any of them. -/
def sliceAll (src : List α) : List Range → Option (List (List α))
  | [] => some []
  | r :: rs =>
    match sliceAt src r, sliceAll src rs with
    | some x, some xs => some (x :: xs)
    | _, _ => none

/-- Embeds `Strloin` from `src/strloin.rs`: holds the source buffer. -/
structure Strloin (α : Type) where
  source : List α

/-- Embeds `Strloin::from_ranges`: if `collapse_ranges` succeeds, borrow the
collapsed part of the source; otherwise build an owned concatenation of the
slices. `none` models a panic in either slicing step. -/
def Strloin.from_ranges (s : Strloin α) (ranges : List Range) : Option (Cow α) :=
  match collapse_ranges ranges with
  | some range => (sliceAt s.source range).map Cow.Borrowed
  | none => (sliceAll s.source ranges).map fun xs => Cow.Owned xs.flatten

/-- Embeds `Strloin::from_ranges_obj`: match on the stored vector — empty
gives a borrowed empty string, a single range gives a borrowed view, and
anything longer gives an owned concatenation. -/
def Strloin.from_ranges_obj (s : Strloin α) (t : Ranges) : Option (Cow α) :=
  match t.ranges with
  | [] => some (Cow.Borrowed [])
  | [r] => (sliceAt s.source r).map Cow.Borrowed
  | l => (sliceAll s.source l).map fun xs => Cow.Owned xs.flatten

/-- Two adjacent stored entries are mergeable by `Ranges.push` when the
second starts where the first stops and both are non-degenerate;
`notMergeable` is the negation, the invariant relation of the store. -/
def notMergeable (a b : Range) : Prop :=
  ¬(b.start = a.stop ∧ a.start < a.stop ∧ b.start < b.stop)

/-! ### Helper lemmas about `Ranges.push` -/

/-- Pushing onto an empty `Ranges` appends. -/
theorem push_nil_aux (r : Range) : (Ranges.push ⟨[]⟩ r).ranges = [r] := rfl

/-- Pushing onto a non-empty `Ranges` merges exactly under the three-part
condition, and otherwise appends. -/
theorem push_concat_aux (l : List Range) (a r : Range) :
    (Ranges.push ⟨l ++ [a]⟩ r).ranges =
      if r.start = a.stop ∧ a.start < a.stop ∧ r.start < r.stop
      then l ++ [⟨a.start, r.stop⟩]
      else l ++ [a, r] := by
  unfold Ranges.push
  rw [List.getLast?_concat]
  dsimp only
  by_cases h : r.start = a.stop ∧ a.start < a.stop ∧ r.start < r.stop
  · rw [if_pos h, if_pos h]
    simp [List.dropLast_concat]
  · rw [if_neg h, if_neg h]
    simp [List.append_assoc]

/-- Pushing onto an empty `Ranges` with the unchecked variant appends. -/
theorem push_unchecked_nil_aux (r : Range) :
    (Ranges.push_unchecked ⟨[]⟩ r).ranges = [r] := rfl

/-- The unchecked push merges exactly when the new start meets the last stop. -/
theorem push_unchecked_concat_aux (l : List Range) (a r : Range) :
    (Ranges.push_unchecked ⟨l ++ [a]⟩ r).ranges =
      if r.start = a.stop
      then l ++ [⟨a.start, r.stop⟩]
      else l ++ [a, r] := by
  unfold Ranges.push_unchecked
  rw [List.getLast?_concat]
  dsimp only
  by_cases h : r.start = a.stop
  · rw [if_pos h, if_pos h]
    simp [List.dropLast_concat]
  · rw [if_neg h, if_neg h]
    simp [List.append_assoc]

/-! ### Claim theorems: push behaviour -/

/-- C4: `Ranges::push` merges the new range into the last stored entry
(setting its stop to the new range's stop, storing no new entry) iff the set
is non-empty, the new start equals the last stop, and both the last entry
and the new range are non-degenerate; in every other case — including a
degenerate range adjacent to a non-empty one — it appends the new range as a
standalone entry. -/
theorem push_eq :
    (∀ r : Range, (Ranges.push ⟨[]⟩ r).ranges = [r]) ∧
    (∀ (l : List Range) (a r : Range),
      (Ranges.push ⟨l ++ [a]⟩ r).ranges =
        if r.start = a.stop ∧ a.start < a.stop ∧ r.start < r.stop
        then l ++ [⟨a.start, r.stop⟩]
        else l ++ [a, r]) :=
  ⟨push_nil_aux, push_concat_aux⟩

/-- C8: `Ranges::push_unchecked` performs the same merge test as `push` but
without the non-degenerate guards: it merges iff the set is non-empty and
the new start equals the last stop, and otherwise appends; it is total, so
it never fails even on a malformed range. -/
theorem push_unchecked_eq :
    (∀ r : Range, (Ranges.push_unchecked ⟨[]⟩ r).ranges = [r]) ∧
    (∀ (l : List Range) (a r : Range),
      (Ranges.push_unchecked ⟨l ++ [a]⟩ r).ranges =
        if r.start = a.stop
        then l ++ [⟨a.start, r.stop⟩]
        else l ++ [a, r]) :=
  ⟨push_unchecked_nil_aux, push_unchecked_concat_aux⟩

/-! ### Claim theorems: collapse edge cases -/

/-- C9: `collapse_ranges` of the empty list is `Some(0..0)`, the degenerate
empty range, not an error. -/
theorem collapse_ranges_nil : collapse_ranges [] = some ⟨0, 0⟩ := rfl

/-- C10: `collapse_ranges` of a singleton `[r]` is `Some r` when
`r.start <= r.stop` and `None` when `r.start > r.stop`. -/
theorem collapse_ranges_single (r : Range) :
    collapse_ranges [r] = if r.start ≤ r.stop then some r else none := by
  by_cases h : r.start ≤ r.stop
  · rw [if_pos h]
    simp [collapse_ranges, collapse_loop, Nat.not_lt.2 h]
  · rw [if_neg h]
    simp [collapse_ranges, Nat.lt_of_not_le h]

/-! ### Helper lemmas about `collapse_loop` -/

/-- The chaining relation only looks at the `stop` of the left element. -/
theorem chain_stop_congr (x y : Range) (h : x.stop = y.stop) (l : List Range) :
    List.Chain (fun a b : Range => b.start = a.stop) x l ↔
      List.Chain (fun a b : Range => b.start = a.stop) y l := by
  cases l with
  | nil => exact ⟨fun _ => List.Chain.nil, fun _ => List.Chain.nil⟩
  | cons c l => simp [List.chain_cons, h]

/-- The last element's `stop` does not depend on the `start` of the default. -/
theorem getLastD_stop_congr (x y : Range) (h : x.stop = y.stop) (l : List Range) :
    (l.getLastD x).stop = (l.getLastD y).stop := by
  cases l with
  | nil => simpa using h
  | cons c l => rw [List.getLastD_cons, List.getLastD_cons]

/-- `getLastD` on a non-empty list agrees with `getLast`. -/
theorem getLastD_eq_getLast {l : List α} (h : l ≠ []) (d : α) :
    l.getLastD d = l.getLast h := by
  rw [List.getLastD_eq_getLast?, List.getLast?_eq_getLast l h]
  rfl

/-- The loop of `collapse_ranges`, on individually valid ranges, succeeds
exactly when the ranges chain end-to-start from the running `end` value, and
then returns the running start paired with the final `stop`. -/
theorem collapse_loop_eq_chain (s : Nat) (l : List Range) :
    ∀ e : Nat, (∀ r ∈ l, r.start ≤ r.stop) →
      collapse_loop s e l =
        if List.Chain (fun a b : Range => b.start = a.stop) ⟨s, e⟩ l
        then some ⟨s, (l.getLastD ⟨s, e⟩).stop⟩
        else none := by
  induction l with
  | nil =>
    intro e _
    rw [if_pos List.Chain.nil]
    simp [collapse_loop, List.getLastD_nil]
  | cons r l ih =>
    intro e hv
    have hr : r.start ≤ r.stop := hv r (List.mem_cons_self r l)
    have hv' : ∀ x ∈ l, x.start ≤ x.stop := fun x hx => hv x (List.mem_cons_of_mem r hx)
    by_cases hs : r.start = e
    · have hguard : ¬(r.start ≠ e ∨ r.stop < r.start) := by
        push_neg
        exact ⟨hs, hr⟩
      rw [collapse_loop, if_neg hguard, ih r.stop hv']
      have hchain : List.Chain (fun a b : Range => b.start = a.stop) ⟨s, r.stop⟩ l ↔
          List.Chain (fun a b : Range => b.start = a.stop) (⟨s, e⟩ : Range) (r :: l) := by
        rw [List.chain_cons]
        constructor
        · intro hc
          exact ⟨hs, (chain_stop_congr ⟨s, r.stop⟩ r rfl l).1 hc⟩
        · intro hc
          exact (chain_stop_congr r ⟨s, r.stop⟩ rfl l).1 hc.2
      have hlast : ((r :: l).getLastD ⟨s, e⟩).stop = (l.getLastD ⟨s, r.stop⟩).stop := by
        rw [List.getLastD_cons]
        exact getLastD_stop_congr r ⟨s, r.stop⟩ rfl l
      by_cases hc : List.Chain (fun a b : Range => b.start = a.stop) (⟨s, e⟩ : Range) (r :: l)
      · rw [if_pos (hchain.2 hc), if_pos hc, hlast]
      · rw [if_neg (fun h => hc (hchain.1 h)), if_neg hc]
    · have hguard : r.start ≠ e ∨ r.stop < r.start := Or.inl hs
      rw [collapse_loop, if_pos hguard]
      have hc : ¬ List.Chain (fun a b : Range => b.start = a.stop) (⟨s, e⟩ : Range) (r :: l) := by
        rw [List.chain_cons]
        rintro ⟨h1, -⟩
        exact hs h1
      rw [if_neg hc]

/-- If the loop of `collapse_ranges` succeeds, every range it walked over was
individually valid. -/
theorem collapse_loop_valid (s : Nat) (l : List Range) :
    ∀ (e : Nat) (c : Range), collapse_loop s e l = some c →
      ∀ r ∈ l, r.start ≤ r.stop := by
  induction l with
  | nil =>
    intro e c _ r hr
    simp at hr
  | cons r l ih =>
    intro e c hc x hx
    rw [collapse_loop] at hc
    by_cases hguard : r.start ≠ e ∨ r.stop < r.start
    · rw [if_pos hguard] at hc
      exact Option.noConfusion hc
    · rw [if_neg hguard] at hc
      push_neg at hguard
      rcases List.mem_cons.1 hx with rfl | hx
      · exact hguard.2
      · exact ih r.stop c hc x hx

/-- If the loop of `collapse_ranges` succeeds, the result keeps the running
start, its `stop` dominates the running `end`, and it dominates the `stop` of
every range walked over. -/
theorem collapse_loop_bounds (s : Nat) (l : List Range) :
    ∀ (e : Nat) (c : Range), collapse_loop s e l = some c →
      c.start = s ∧ e ≤ c.stop ∧ ∀ r ∈ l, r.stop ≤ c.stop := by
  induction l with
  | nil =>
    intro e c hc
    rw [collapse_loop] at hc
    cases Option.some.inj hc
    simp
  | cons r l ih =>
    intro e c hc
    rw [collapse_loop] at hc
    by_cases hguard : r.start ≠ e ∨ r.stop < r.start
    · rw [if_pos hguard] at hc
      exact Option.noConfusion hc
    · rw [if_neg hguard] at hc
      push_neg at hguard
      obtain ⟨hse, hrv⟩ := hguard
      obtain ⟨h1, h2, h3⟩ := ih r.stop c hc
      refine ⟨h1, ?_, ?_⟩
      · calc e = r.start := hse.symm
          _ ≤ r.stop := hrv
          _ ≤ c.stop := h2
      · intro x hx
        rcases List.mem_cons.1 hx with rfl | hx
        · exact h2
        · exact h3 x hx

/-! ### Claim theorem: collapsing a chain of two or more ranges -/

/-- C1: for a list of two or more individually valid ranges, `collapse_ranges`
returns `Some(first.start .. last.stop)` iff every consecutive pair chains
exactly (`next.start == prev.stop`); any gap, overlap, or out-of-order pair
anywhere makes the result `None`. -/
theorem collapse_ranges_chain (a b : Range) (l : List Range)
    (hv : ∀ r ∈ a :: b :: l, r.start ≤ r.stop) :
    (collapse_ranges (a :: b :: l) =
        some ⟨a.start, ((b :: l).getLast (List.cons_ne_nil b l)).stop⟩ ↔
      List.Chain' (fun x y : Range => y.start = x.stop) (a :: b :: l)) ∧
    (¬ List.Chain' (fun x y : Range => y.start = x.stop) (a :: b :: l) →
      collapse_ranges (a :: b :: l) = none) := by
  have ha : a.start ≤ a.stop := hv a (List.mem_cons_self a (b :: l))
  have hv' : ∀ r ∈ b :: l, r.start ≤ r.stop := fun r hr => hv r (List.mem_cons_of_mem a hr)
  have hmain : collapse_ranges (a :: b :: l) =
      if List.Chain (fun x y : Range => y.start = x.stop) a (b :: l)
      then some ⟨a.start, ((b :: l).getLast (List.cons_ne_nil b l)).stop⟩
      else none := by
    rw [collapse_ranges, if_neg (Nat.not_lt.2 ha), collapse_loop_eq_chain a.start (b :: l) a.stop hv']
    have heta : (⟨a.start, a.stop⟩ : Range) = a := rfl
    rw [heta, getLastD_eq_getLast (List.cons_ne_nil b l) a]
  constructor
  · rw [hmain]
    by_cases hc : List.Chain (fun x y : Range => y.start = x.stop) a (b :: l)
    · rw [if_pos hc]
      exact ⟨fun _ => hc, fun _ => rfl⟩
    · rw [if_neg hc]
      exact ⟨fun h => Option.noConfusion h, fun h => absurd h hc⟩
  · intro hnc
    have hc' : ¬ List.Chain (fun x y : Range => y.start = x.stop) a (b :: l) :=
      fun hc => hnc hc
    rw [hmain, if_neg hc']

/-- Witness for C1 at the concrete chain `[0..2, 2..4]`. -/
theorem collapse_ranges_chain_witness :
    (collapse_ranges [⟨0, 2⟩, ⟨2, 4⟩] =
        some (⟨(⟨0, 2⟩ : Range).start,
          (([⟨2, 4⟩] : List Range).getLast (List.cons_ne_nil (⟨2, 4⟩ : Range) [])).stop⟩ : Range) ↔
      List.Chain' (fun x y : Range => y.start = x.stop) [⟨0, 2⟩, ⟨2, 4⟩]) ∧
    (¬ List.Chain' (fun x y : Range => y.start = x.stop) [⟨0, 2⟩, ⟨2, 4⟩] →
      collapse_ranges [⟨0, 2⟩, ⟨2, 4⟩] = none) :=
  collapse_ranges_chain ⟨0, 2⟩ ⟨2, 4⟩ [] (by decide)

/-! ### Helper lemmas about slicing -/

/-- Indexing succeeds on a valid, in-bounds range. -/
theorem sliceAt_eq_extract (src : List α) (r : Range)
    (h1 : r.start ≤ r.stop) (h2 : r.stop ≤ src.length) :
    sliceAt src r = some (extract src r) := if_pos ⟨h1, h2⟩

/-- Indexing panics (is `none`) on a reversed or out-of-bounds range. -/
theorem sliceAt_eq_none (src : List α) (r : Range)
    (h : r.stop < r.start ∨ src.length < r.stop) :
    sliceAt src r = none := by
  apply if_neg
  rintro ⟨h1, h2⟩
  rcases h with h | h
  · omega
  · omega

/-- Slicing a whole list of valid, in-bounds ranges yields their extracts. -/
theorem sliceAll_eq_map (src : List α) (l : List Range)
    (h : ∀ r ∈ l, r.start ≤ r.stop ∧ r.stop ≤ src.length) :
    sliceAll src l = some (l.map (extract src)) := by
  induction l with
  | nil => rfl
  | cons r l ih =>
    have hr := h r (List.mem_cons_self r l)
    rw [sliceAll, sliceAt_eq_extract src r hr.1 hr.2,
      ih fun x hx => h x (List.mem_cons_of_mem r hx)]
    rfl

/-- Slicing a list containing a bad range panics. -/
theorem sliceAll_eq_none_of_mem (src : List α) (l : List Range) (r : Range)
    (hr : r ∈ l) (hn : sliceAt src r = none) : sliceAll src l = none := by
  induction l with
  | nil => cases hr
  | cons a l ih =>
    rw [sliceAll]
    rcases List.mem_cons.1 hr with rfl | hmem
    · rw [hn]
    · cases hs : sliceAt src a with
      | none => rfl
      | some x => rw [ih hmem]

/-! ### Helper lemmas about `collapse_ranges` success -/

/-- A successful collapse certifies that every input range was valid. -/
theorem collapse_ranges_some_valid (rs : List Range) (c : Range)
    (hc : collapse_ranges rs = some c) : ∀ r ∈ rs, r.start ≤ r.stop := by
  cases rs with
  | nil =>
    intro r hr
    cases hr
  | cons first rest =>
    rw [collapse_ranges] at hc
    by_cases h : first.start > first.stop
    · rw [if_pos h] at hc
      exact Option.noConfusion hc
    · rw [if_neg h] at hc
      intro r hr
      rcases List.mem_cons.1 hr with rfl | hr
      · exact Nat.not_lt.1 h
      · exact collapse_loop_valid first.start rest first.stop c hc r hr

/-- The collapsed range starts at the first range's start, and its stop
dominates every input stop. -/
theorem collapse_ranges_some_le (first : Range) (rest : List Range) (c : Range)
    (hc : collapse_ranges (first :: rest) = some c) :
    c.start = first.start ∧ first.stop ≤ c.stop ∧ ∀ r ∈ rest, r.stop ≤ c.stop := by
  rw [collapse_ranges] at hc
  by_cases h : first.start > first.stop
  · rw [if_pos h] at hc
    exact Option.noConfusion hc
  · rw [if_neg h] at hc
    exact collapse_loop_bounds first.start rest first.stop c hc

/-- The final `stop` of a successful loop run is the running `end` value or
the `stop` of one of the walked ranges. -/
theorem collapse_loop_stop_cases (s : Nat) (l : List Range) :
    ∀ (e : Nat) (c : Range), collapse_loop s e l = some c →
      c.stop = e ∨ ∃ r ∈ l, c.stop = r.stop := by
  induction l with
  | nil =>
    intro e c hc
    rw [collapse_loop] at hc
    cases Option.some.inj hc
    exact Or.inl rfl
  | cons r l ih =>
    intro e c hc
    rw [collapse_loop] at hc
    by_cases hguard : r.start ≠ e ∨ r.stop < r.start
    · rw [if_pos hguard] at hc
      exact Option.noConfusion hc
    · rw [if_neg hguard] at hc
      rcases ih r.stop c hc with h | ⟨x, hx, hxs⟩
      · exact Or.inr ⟨r, List.mem_cons_self r l, h⟩
      · exact Or.inr ⟨x, List.mem_cons_of_mem r hx, hxs⟩

/-- The collapsed range stays within any bound that holds for every input. -/
theorem collapse_ranges_stop_le (rs : List Range) (c : Range) (n : Nat)
    (hc : collapse_ranges rs = some c) (hb : ∀ r ∈ rs, r.stop ≤ n) :
    c.stop ≤ n := by
  cases rs with
  | nil =>
    rw [collapse_ranges] at hc
    cases Option.some.inj hc
    exact Nat.zero_le n
  | cons first rest =>
    rw [collapse_ranges] at hc
    by_cases h : first.start > first.stop
    · rw [if_pos h] at hc
      exact Option.noConfusion hc
    · rw [if_neg h] at hc
      rcases collapse_loop_stop_cases first.start rest first.stop c hc with he | ⟨x, hx, hxs⟩
      · rw [he]
        exact hb first (List.mem_cons_self first rest)
      · rw [hxs]
        exact hb x (List.mem_cons_of_mem first hx)

/-- The collapsed range of a valid, in-bounds input is itself a valid,
in-bounds range. -/
theorem collapse_ranges_some_ok (rs : List Range) (c : Range) (n : Nat)
    (hc : collapse_ranges rs = some c)
    (hb : ∀ r ∈ rs, r.start ≤ r.stop ∧ r.stop ≤ n) :
    c.start ≤ c.stop ∧ c.stop ≤ n := by
  refine ⟨?_, collapse_ranges_stop_le rs c n hc fun r hr => (hb r hr).2⟩
  cases rs with
  | nil =>
    rw [collapse_ranges] at hc
    cases Option.some.inj hc
    exact Nat.le_refl 0
  | cons first rest =>
    obtain ⟨h1, h2, -⟩ := collapse_ranges_some_le first rest c hc
    have hfv : first.start ≤ first.stop :=
      (hb first (List.mem_cons_self first rest)).1
    omega

/-! ### Claim theorems: the extractor -/

/-- C2: on valid, in-bounds input, `from_ranges` never panics and returns
the borrowed collapsed view exactly when `collapse_ranges` succeeds, and
otherwise the owned concatenation of the slices in input order. -/
theorem from_ranges_spec (s : Strloin α) (rs : List Range)
    (hb : ∀ r ∈ rs, r.start ≤ r.stop ∧ r.stop ≤ s.source.length) :
    s.from_ranges rs = some (
      match collapse_ranges rs with
      | some c => Cow.Borrowed (extract s.source c)
      | none => Cow.Owned ((rs.map (extract s.source)).flatten)) := by
  cases hc : collapse_ranges rs with
  | none =>
    unfold Strloin.from_ranges
    rw [hc]
    dsimp only
    rw [sliceAll_eq_map s.source rs hb]
    rfl
  | some c =>
    unfold Strloin.from_ranges
    rw [hc]
    dsimp only
    obtain ⟨h1, h2⟩ := collapse_ranges_some_ok rs c s.source.length hc hb
    rw [sliceAt_eq_extract s.source c h1 h2]
    rfl

/-- Witness for C2 on source `[10, 20, 30]` and the gapped input
`[0..1, 2..3]`, which cannot collapse and so yields an owned result. -/
theorem from_ranges_spec_witness :
    Strloin.from_ranges (⟨[10, 20, 30]⟩ : Strloin Nat) [⟨0, 1⟩, ⟨2, 3⟩] =
      some (Cow.Owned [10, 30]) :=
  from_ranges_spec ⟨[10, 20, 30]⟩ [⟨0, 1⟩, ⟨2, 3⟩] (by decide)

/-- C3: on a `Ranges` whose stored entries are valid and in-bounds,
`from_ranges_obj` decides by the number of stored entries alone: none gives
a borrowed empty view, one gives a borrowed view of that entry, and two or
more give the owned concatenation of all entries in stored order. -/
theorem from_ranges_obj_spec (s : Strloin α) (t : Ranges)
    (hb : ∀ r ∈ t.ranges, r.start ≤ r.stop ∧ r.stop ≤ s.source.length) :
    s.from_ranges_obj t = some (
      match t.ranges with
      | [] => Cow.Borrowed []
      | [r] => Cow.Borrowed (extract s.source r)
      | l => Cow.Owned ((l.map (extract s.source)).flatten)) := by
  obtain ⟨l⟩ := t
  dsimp only at hb
  cases l with
  | nil => rfl
  | cons r1 l1 =>
    cases l1 with
    | nil =>
      have hr := hb r1 (List.mem_cons_self r1 [])
      unfold Strloin.from_ranges_obj
      dsimp only
      rw [sliceAt_eq_extract s.source r1 hr.1 hr.2]
      rfl
    | cons r2 l2 =>
      unfold Strloin.from_ranges_obj
      dsimp only
      rw [sliceAll_eq_map s.source (r1 :: r2 :: l2) hb]
      rfl

/-- Witness for C3 on a single stored entry, yielding a borrowed view. -/
theorem from_ranges_obj_spec_witness :
    Strloin.from_ranges_obj (⟨[10, 20]⟩ : Strloin Nat) ⟨[⟨0, 1⟩]⟩ =
      some (Cow.Borrowed [10]) :=
  from_ranges_obj_spec ⟨[10, 20]⟩ ⟨[⟨0, 1⟩]⟩ (by decide)

/-- C6: `from_ranges` on a list containing a reversed range (`start > end`)
or a range past the end of the source panics (modelled as `none`); it never
returns a normal, truncated, or partial result. -/
theorem from_ranges_invalid (s : Strloin α) (rs : List Range) (r : Range)
    (hmem : r ∈ rs) (hbad : r.stop < r.start ∨ s.source.length < r.stop) :
    s.from_ranges rs = none := by
  have hsn : sliceAt s.source r = none := sliceAt_eq_none s.source r hbad
  cases hc : collapse_ranges rs with
  | none =>
    unfold Strloin.from_ranges
    rw [hc]
    dsimp only
    rw [sliceAll_eq_none_of_mem s.source rs r hmem hsn]
    rfl
  | some c =>
    unfold Strloin.from_ranges
    rw [hc]
    dsimp only
    have hval := collapse_ranges_some_valid rs c hc
    rcases hbad with h | h
    · exact absurd (hval r hmem) (by omega)
    · have hrc : r.stop ≤ c.stop := by
        cases rs with
        | nil => cases hmem
        | cons first rest =>
          obtain ⟨-, h2, h3⟩ := collapse_ranges_some_le first rest c hc
          rcases List.mem_cons.1 hmem with rfl | hm
          · exact h2
          · exact h3 r hm
      rw [sliceAt_eq_none s.source c (Or.inr (by omega))]
      rfl

/-- Witness for C6 at the reversed range `[1..0]`. -/
theorem from_ranges_invalid_witness :
    Strloin.from_ranges (⟨[10, 20]⟩ : Strloin Nat) [⟨1, 0⟩] = none :=
  from_ranges_invalid ⟨[10, 20]⟩ [⟨1, 0⟩] ⟨1, 0⟩ (by decide) (by decide)

/-! ### The push invariant (C5) -/

/-- A single push preserves the no-adjacent-mergeable-pair invariant. -/
theorem push_preserves_inv (s : Ranges) (r : Range)
    (h : List.Chain' notMergeable s.ranges) :
    List.Chain' notMergeable (s.push r).ranges := by
  obtain ⟨l⟩ := s
  dsimp only at h
  rcases List.eq_nil_or_concat l with rfl | ⟨L, a, rfl⟩
  · rw [push_nil_aux]
    exact List.chain'_singleton r
  · rw [List.concat_eq_append] at h ⊢
    rw [push_concat_aux]
    by_cases hm : r.start = a.stop ∧ a.start < a.stop ∧ r.start < r.stop
    · rw [if_pos hm]
      obtain ⟨h1, -, h3⟩ := List.chain'_append.1 h
      refine List.chain'_append.2 ⟨h1, List.chain'_singleton _, ?_⟩
      intro x hx y hy
      simp only [List.head?_cons, Option.mem_def, Option.some.injEq] at hy
      subst hy
      have hxa : notMergeable x a := h3 x hx a (by simp)
      rintro ⟨e1, e2, -⟩
      exact hxa ⟨e1, e2, hm.2.1⟩
    · rw [if_neg hm]
      have hsplit : L ++ [a, r] = (L ++ [a]) ++ [r] := by simp
      rw [hsplit]
      refine List.chain'_append.2 ⟨h, List.chain'_singleton r, ?_⟩
      intro x hx y hy
      rw [List.getLast?_concat, Option.mem_def, Option.some.injEq] at hx
      simp only [List.head?_cons, Option.mem_def, Option.some.injEq] at hy
      subst hx
      subst hy
      exact hm

/-- C5: every `Ranges` reachable from the empty set by pushes has no two
adjacent mergeable stored entries, and each individual push preserves that
invariant, keeping the store maximally collapsed after every insertion. -/
theorem push_invariant :
    (∀ (s : Ranges) (r : Range),
        List.Chain' notMergeable s.ranges →
        List.Chain' notMergeable (s.push r).ranges) ∧
    (∀ rs : List Range,
        List.Chain' notMergeable ((rs.foldl Ranges.push Ranges.new).ranges)) := by
  have hfold : ∀ (rs : List Range) (s : Ranges), List.Chain' notMergeable s.ranges →
      List.Chain' notMergeable ((rs.foldl Ranges.push s).ranges) := by
    intro rs
    induction rs with
    | nil => intro s h; exact h
    | cons r rs ih =>
      intro s h
      exact ih (s.push r) (push_preserves_inv s r h)
  exact ⟨push_preserves_inv, fun rs => hfold rs Ranges.new List.chain'_nil⟩

/-- Witness for C5: one concrete push on the empty set keeps the invariant. -/
theorem push_invariant_witness :
    List.Chain' notMergeable ((Ranges.push ⟨[]⟩ ⟨0, 1⟩).ranges) :=
  push_invariant.1 ⟨[]⟩ ⟨0, 1⟩ List.chain'_nil

/-! ### Content preservation (C7) -/

/-- Splitting an extract at an intermediate boundary. -/
theorem extract_split (src : List α) (x y z : Nat) (hxy : x ≤ y) (hyz : y ≤ z) :
    extract src ⟨x, z⟩ = extract src ⟨x, y⟩ ++ extract src ⟨y, z⟩ := by
  unfold extract
  have h1 : z - x = (y - x) + (z - y) := by omega
  have h2 : x + (y - x) = y := by omega
  rw [h1, List.take_add, List.drop_drop, h2]

/-- One push keeps every stored entry valid and in-bounds, and appends the
pushed range's extract to the concatenated content of the store. -/
theorem push_flatten (src : List α) (s : Ranges) (r : Range)
    (hs : ∀ x ∈ s.ranges, x.start ≤ x.stop ∧ x.stop ≤ src.length)
    (hr : r.start ≤ r.stop ∧ r.stop ≤ src.length) :
    (∀ x ∈ (s.push r).ranges, x.start ≤ x.stop ∧ x.stop ≤ src.length) ∧
    ((s.push r).ranges.map (extract src)).flatten =
      (s.ranges.map (extract src)).flatten ++ extract src r := by
  obtain ⟨l⟩ := s
  dsimp only at hs
  rcases List.eq_nil_or_concat l with rfl | ⟨L, a, rfl⟩
  · rw [push_nil_aux]
    constructor
    · intro x hx
      rcases List.mem_singleton.1 hx with rfl
      exact hr
    · simp
  · rw [List.concat_eq_append] at hs ⊢
    rw [push_concat_aux]
    have ha := hs a (List.mem_append.2 (Or.inr (List.mem_singleton.2 rfl)))
    by_cases hm : r.start = a.stop ∧ a.start < a.stop ∧ r.start < r.stop
    · rw [if_pos hm]
      constructor
      · intro x hx
        rcases List.mem_append.1 hx with hx | hx
        · exact hs x (List.mem_append.2 (Or.inl hx))
        · rcases List.mem_singleton.1 hx with rfl
          refine ⟨?_, hr.2⟩
          have e1 := hm.1
          have e2 := hm.2.1
          have e3 := hm.2.2
          simp only
          omega
      · rw [List.map_append, List.map_append, List.flatten_append, List.flatten_append]
        simp only [List.map_cons, List.map_nil, List.flatten_cons, List.flatten_nil,
          List.append_nil]
        rw [List.append_assoc]
        congr 1
        have h1 : a.start ≤ a.stop := Nat.le_of_lt hm.2.1
        have h2 : a.stop ≤ r.stop := by
          have e1 := hm.1
          have e3 := hm.2.2
          omega
        rw [extract_split src a.start a.stop r.stop h1 h2]
        congr 1
        rw [← hm.1]
    · rw [if_neg hm]
      constructor
      · intro x hx
        rcases List.mem_append.1 hx with hx | hx
        · exact hs x (List.mem_append.2 (Or.inl hx))
        · rcases List.mem_cons.1 hx with rfl | hx
          · exact ha
          · rcases List.mem_singleton.1 hx with rfl
            exact hr
      · rw [show L ++ [a, r] = (L ++ [a]) ++ [r] by simp, List.map_append, List.flatten_append]
        simp only [List.map_cons, List.map_nil, List.flatten_cons, List.flatten_nil,
          List.append_nil]

/-- Folding pushes over a list keeps the entries valid and concatenates the
pushed extracts after the starting store's content. -/
theorem foldl_push_flatten (src : List α) (rs : List Range) :
    ∀ s : Ranges, (∀ x ∈ s.ranges, x.start ≤ x.stop ∧ x.stop ≤ src.length) →
      (∀ r ∈ rs, r.start ≤ r.stop ∧ r.stop ≤ src.length) →
      (∀ x ∈ (rs.foldl Ranges.push s).ranges, x.start ≤ x.stop ∧ x.stop ≤ src.length) ∧
      ((rs.foldl Ranges.push s).ranges.map (extract src)).flatten =
        (s.ranges.map (extract src)).flatten ++ (rs.map (extract src)).flatten := by
  induction rs with
  | nil =>
    intro s hs _
    exact ⟨hs, by simp⟩
  | cons r rs ih =>
    intro s hs hr
    have hpf := push_flatten src s r hs (hr r (List.mem_cons_self r rs))
    obtain ⟨hbs, heq⟩ := ih (s.push r) hpf.1 fun x hx => hr x (List.mem_cons_of_mem r hx)
    refine ⟨hbs, ?_⟩
    rw [List.foldl_cons, heq, hpf.2]
    simp [List.append_assoc]

/-- The content a caller reads from `from_ranges_obj` on a valid, in-bounds
store is the concatenation of the stored entries' extracts. -/
theorem from_ranges_obj_content (s : Strloin α) (t : Ranges)
    (hb : ∀ r ∈ t.ranges, r.start ≤ r.stop ∧ r.stop ≤ s.source.length) :
    (s.from_ranges_obj t).map Cow.content =
      some ((t.ranges.map (extract s.source)).flatten) := by
  obtain ⟨l⟩ := t
  dsimp only at hb
  cases l with
  | nil => rfl
  | cons r1 l1 =>
    cases l1 with
    | nil =>
      have hr := hb r1 (List.mem_cons_self r1 [])
      unfold Strloin.from_ranges_obj
      dsimp only
      rw [sliceAt_eq_extract s.source r1 hr.1 hr.2]
      simp [Cow.content]
    | cons r2 l2 =>
      unfold Strloin.from_ranges_obj
      dsimp only
      rw [sliceAll_eq_map s.source (r1 :: r2 :: l2) hb]
      rfl

/-- A successful loop run extracts the same content as concatenating the
extracts of the walked ranges after the prefix `[s, e)`. -/
theorem collapse_loop_extract (src : List α) (s : Nat) (l : List Range) :
    ∀ (e : Nat) (c : Range), s ≤ e → (∀ r ∈ l, r.start ≤ r.stop) →
      collapse_loop s e l = some c →
      extract src c = extract src ⟨s, e⟩ ++ (l.map (extract src)).flatten := by
  induction l with
  | nil =>
    intro e c _ _ hc
    rw [collapse_loop] at hc
    cases Option.some.inj hc
    simp
  | cons r l ih =>
    intro e c hse hv hc
    rw [collapse_loop] at hc
    by_cases hguard : r.start ≠ e ∨ r.stop < r.start
    · rw [if_pos hguard] at hc
      exact Option.noConfusion hc
    · rw [if_neg hguard] at hc
      push_neg at hguard
      obtain ⟨hre, hrv⟩ := hguard
      have hs' : s ≤ r.stop := by omega
      rw [ih r.stop c hs' (fun x hx => hv x (List.mem_cons_of_mem r hx)) hc]
      rw [extract_split src s e r.stop hse (by omega)]
      rw [List.append_assoc]
      congr 1
      simp only [List.map_cons, List.flatten_cons]
      congr 1
      rw [← hre]

/-- The content a caller reads from `from_ranges` on valid, in-bounds input
is the concatenation of the input ranges' extracts. -/
theorem from_ranges_content (s : Strloin α) (rs : List Range)
    (hb : ∀ r ∈ rs, r.start ≤ r.stop ∧ r.stop ≤ s.source.length) :
    (s.from_ranges rs).map Cow.content =
      some ((rs.map (extract s.source)).flatten) := by
  cases hc : collapse_ranges rs with
  | none =>
    unfold Strloin.from_ranges
    rw [hc]
    dsimp only
    rw [sliceAll_eq_map s.source rs hb]
    rfl
  | some c =>
    unfold Strloin.from_ranges
    rw [hc]
    dsimp only
    obtain ⟨h1, h2⟩ := collapse_ranges_some_ok rs c s.source.length hc hb
    rw [sliceAt_eq_extract s.source c h1 h2]
    show some (extract s.source c) = some ((rs.map (extract s.source)).flatten)
    cases rs with
    | nil =>
      rw [collapse_ranges] at hc
      cases Option.some.inj hc
      rfl
    | cons first rest =>
      rw [collapse_ranges] at hc
      have hfv : first.start ≤ first.stop := (hb first (List.mem_cons_self first rest)).1
      rw [if_neg (Nat.not_lt.2 hfv)] at hc
      have hext := collapse_loop_extract s.source first.start rest first.stop c hfv
        (fun x hx => (hb x (List.mem_cons_of_mem first hx)).1) hc
      rw [hext]
      have heta : extract s.source (⟨first.start, first.stop⟩ : Range) =
          extract s.source first := rfl
      rw [heta]
      simp only [List.map_cons, List.flatten_cons]

/-- C7: pushing a sequence of valid, in-bounds ranges through a `Ranges`
built from `Ranges.new` and then extracting via `from_ranges_obj` yields the
same content as `from_ranges` on the original sequence (the borrowed/owned
tag may differ, the text does not). -/
theorem from_ranges_obj_agrees (s : Strloin α) (rs : List Range)
    (hb : ∀ r ∈ rs, r.start ≤ r.stop ∧ r.stop ≤ s.source.length) :
    (s.from_ranges_obj (rs.foldl Ranges.push Ranges.new)).map Cow.content =
      (s.from_ranges rs).map Cow.content := by
  obtain ⟨hbs, heq⟩ :=
    foldl_push_flatten s.source rs Ranges.new (by intro x hx; cases hx) hb
  rw [from_ranges_obj_content s _ hbs, from_ranges_content s rs hb, heq]
  simp [Ranges.new]

/-- Witness for C7 on a chaining concrete input. -/
theorem from_ranges_obj_agrees_witness :
    (Strloin.from_ranges_obj (⟨[10, 20, 30]⟩ : Strloin Nat)
        ([⟨0, 1⟩, ⟨1, 2⟩].foldl Ranges.push Ranges.new)).map Cow.content =
      (Strloin.from_ranges (⟨[10, 20, 30]⟩ : Strloin Nat) [⟨0, 1⟩, ⟨1, 2⟩]).map Cow.content :=
  from_ranges_obj_agrees ⟨[10, 20, 30]⟩ [⟨0, 1⟩, ⟨1, 2⟩] (by decide)
